import Mathlib

/-!
# Verification of the state-channel reducer and routing model

Shallow embedding of the reducers and graph wiring of the `simple-agent`
repository, together with proofs about them.

Embedded source functions (TypeScript → Lean):

* `addMessagesL` / `addMessages` — the identifier-aware message reducer
  `addMessages` of `src/unnamed/part_002` (the identical definition also
  appears in `src/Exercices/Module 2/Exercice 4/trim-filter-messages.mts`):
  tombstone (`RemoveMessage`) handling, in-place replacement by identifier,
  append otherwise.
* `addMessagesSR` — the `addMessages` reducer of
  `src/Exercices/Module 2/Exercice 2/state-reducers.mts` (replacement by
  identifier, no tombstones).
* `addMessagesSimple` — the append-only `addMessages` of
  `src/Exercices/Module 1/Exercice 3/router.mts`,
  `src/Exercices/Module 1/Exercice 5/agent-memory.mts` and
  `src/Exercices/Module 1/Web/agent-memory-server.mts`.
* `concatReducer` — the list-concatenation reducer of `state-reducers.mts`.
* `updateSummary`, `should_continue`, `summarizeRemovals`,
  `node_2_branch`, `node_3_branch` — further functions of those files.

JavaScript details carried over faithfully: a message `id` is an optional
string (`Option String`), the truthiness test `if (msg.id)` holds exactly
when the id is present and non-empty, `findIndex` matches the first
element only, and a `BaseMessage | BaseMessage[]` update is normalized to
an array before processing.
-/

/-- Message role (`human` / `assistant` / `system` / tool-result), per the
data model of the conversation messages used throughout the exercises. -/
inductive Role where
  | human
  | assistant
  | system
  | toolResult
deriving DecidableEq, Repr

/-- One conversation message: role, textual content, and the optional stable
identifier `id` (TypeScript `id?: string`, so `none` models `undefined` and
`some ""` models an empty-string id). -/
structure Message where
  role : Role
  content : String
  id : Option String
deriving DecidableEq, Repr

/-- An element of an update handed to the identifier-aware `addMessages`
reducer: either an ordinary message or a `RemoveMessage` tombstone, which in
LangChain always carries a (string) identifier. -/
inductive MsgItem where
  | msg (m : Message)
  | remove (rid : String)
deriving DecidableEq, Repr

/-- `findIndex((m) => m.id === rid) !== -1`: does the list contain a message
whose id is exactly `some rid`? -/
def containsId (l : List Message) (s : String) : Bool :=
  l.any (fun m => m.id == some s)

/-- `result.splice(index, 1)` at the index returned by
`findIndex((m) => m.id === rid)`: drop the first message whose id is
`some rid`; if there is none (`findIndex` returns `-1`) the list is
returned unchanged. -/
def removeById : List Message → String → List Message
  | [], _ => []
  | x :: xs, rid => if x.id = some rid then xs else x :: removeById xs rid

/-- `result[existingIndex] = msg` at the index returned by
`findIndex((m) => m.id === s)`: replace the first message whose id is
`some s` by `m`, leaving every other element in place. -/
def replaceById : List Message → String → Message → List Message
  | [], _, _ => []
  | x :: xs, s, m => if x.id = some s then m :: xs else x :: replaceById xs s m

/-- One iteration of the `for (const msg of messagesToAdd)` loop of the
identifier-aware `addMessages` of `src/unnamed/part_002` (lines 25–57):
a tombstone removes the first message bearing its id; a message with a
truthy id (`if (msg.id)`: present and non-empty) replaces the first
existing message with that id, or is appended if there is none; any other
message is appended. -/
def applyItem (result : List Message) (item : MsgItem) : List Message :=
  match item with
  | .remove rid => removeById result rid
  | .msg m =>
    match m.id with
    | some s =>
      if s = "" then result ++ [m]
      else if containsId result s then replaceById result s m
      else result ++ [m]
    | none => result ++ [m]

/-- The identifier-aware `addMessages` reducer of `src/unnamed/part_002`
(identical code in `trim-filter-messages.mts`), acting on an already
normalized update list. -/
def addMessagesL : List Message → List MsgItem → List Message
  | current, [] => current
  | current, item :: rest => addMessagesL (applyItem current item) rest

/-- A `BaseMessage | BaseMessage[]` update before normalization. -/
inductive MsgUpdate where
  | single (item : MsgItem)
  | many (items : List MsgItem)
deriving DecidableEq, Repr

/-- `Array.isArray(update) ? update : [update]`. -/
def normalizeUpdate : MsgUpdate → List MsgItem
  | .single i => [i]
  | .many is => is

/-- The identifier-aware `addMessages` reducer including the
single-message-versus-array normalization of its argument. -/
def addMessages (current : List Message) (update : MsgUpdate) : List Message :=
  addMessagesL current (normalizeUpdate update)

/-- One iteration of the `for (const message of messagesToAdd)` loop of the
`addMessages` reducer of `state-reducers.mts` (lines 228–249): same as
`applyItem` on a plain message, but this variant has no tombstone case. -/
def applyItemSR (result : List Message) (m : Message) : List Message :=
  match m.id with
  | some s =>
    if s = "" then result ++ [m]
    else if containsId result s then replaceById result s m
    else result ++ [m]
  | none => result ++ [m]

/-- The `addMessages` reducer of `state-reducers.mts` on a normalized
update list. -/
def addMessagesSR : List Message → List Message → List Message
  | current, [] => current
  | current, m :: rest => addMessagesSR (applyItemSR current m) rest

/-- A `BaseMessage | BaseMessage[]` update for the append-only reducers
(no tombstones occur there). -/
inductive SimpleUpdate where
  | single (m : Message)
  | many (ms : List Message)
deriving DecidableEq, Repr

/-- `Array.isArray(update) ? update : [update]` for the append-only
reducers. -/
def normalizeSimple : SimpleUpdate → List Message
  | .single m => [m]
  | .many ms => ms

/-- The append-only `addMessages` reducer shared verbatim by `router.mts`
(lines 37–40), `agent-memory.mts` (lines 72–75) and
`agent-memory-server.mts` (lines 78–81):
`return [...current, ...messagesToAdd]`. -/
def addMessagesSimple (current : List Message) (update : SimpleUpdate) : List Message :=
  current ++ normalizeSimple update

/-- A `number[] | number` update for the `foo` list channel of
`state-reducers.mts`. -/
inductive NumUpdate where
  | single (n : Int)
  | many (ns : List Int)
deriving DecidableEq, Repr

/-- `Array.isArray(update) ? update : [update]` for number updates: a
non-array update becomes a one-element sequence. -/
def normalizeToSequence : NumUpdate → List Int
  | .single n => [n]
  | .many ns => ns

/-- The `concatReducer` of `state-reducers.mts` (lines 99–102):
`return [...current, ...updateArray]`. -/
def concatReducer (current : List Int) (update : NumUpdate) : List Int :=
  current ++ normalizeToSequence update

/-- Successive application of a sequence of partial updates to an
append-policy channel, each through `concatReducer`. -/
def applyConcatUpdates : List Int → List NumUpdate → List Int
  | current, [] => current
  | current, u :: us => applyConcatUpdates (concatReducer current u) us

/-- The state of the summarization graph of `src/unnamed/part_002`:
a `messages` channel and a `summary` channel. -/
structure SummState where
  messages : List Message
  summary : String
deriving DecidableEq, Repr

/-- The `updateSummary` reducer of `src/unnamed/part_002`: overwrite. -/
def updateSummary (current update : String) : String :=
  update

/-- Destination returned by the conditional edge of the summarization
graph: the `summarize_conversation` node or the `END` sentinel. -/
inductive NextNode where
  | summarize_conversation
  | END
deriving DecidableEq, Repr

/-- The routing function `should_continue` of `src/unnamed/part_002`
(lines 140–150): summarize when there are more than 6 messages, terminate
otherwise. -/
def should_continue (state : SummState) : NextNode :=
  if state.messages.length > 6 then .summarize_conversation else .END

/-- The tombstones built by `summarize_conversation` of
`src/unnamed/part_002` (lines 119–129): one `RemoveMessage` for each
message except the two most recent (`state.messages.slice(0, -2)`), whose
id is `m.id || ""` — the empty string when the message has no id. -/
def summarizeRemovals (msgs : List Message) : List MsgItem :=
  (msgs.take (msgs.length - 2)).map (fun m => .remove (m.id.getD ""))

/-- A partial update over the summarization state: each key is optional, a
missing key meaning the key is absent from the node's returned object. -/
structure SummPartial where
  messages : Option (List MsgItem)
  summary : Option String
deriving DecidableEq, Repr

/-- Modelled from the spec: the Channel Store's `applyUpdate` (the store
itself lives in the `langgraph` library, outside the repository sources) —
"for every key in `partial`, look up the channel's merge function and
compute `newValue = merge(currentValue, partial[key])`; replace current
value. Keys absent from `partial` are untouched." Instantiated at the two
channels of the summarization graph with their reducers `addMessages` and
`updateSummary` as registered by `builder` (lines 156–167). -/
def applyUpdateSumm (s : SummState) (p : SummPartial) : SummState :=
  { messages :=
      match p.messages with
      | some u => addMessagesL s.messages u
      | none => s.messages
    summary :=
      match p.summary with
      | some v => updateSummary s.summary v
      | none => s.summary }

/-- The shape of the partial update returned by `call_model` of
`src/unnamed/part_002` (lines 70–89): `return { messages: [response] }` —
only the `messages` key, carrying the single model response. -/
def call_model_update (response : Message) : SummPartial :=
  { messages := some [.msg response], summary := none }

/-- Modelled from the spec: one step of the Graph Executor after the
`conversation` node ran (the step loop lives in the `langgraph` library) —
the node's returned messages are merged through the `messages` channel's
reducer, and the conditional edge registered by
`builder.addConditionalEdges("conversation", should_continue)`
(lines 169–179) evaluates `should_continue` on the post-merge snapshot. -/
def conversationStepNext (s : SummState) (update : List MsgItem) : NextNode :=
  should_continue { messages := addMessagesL s.messages update, summary := s.summary }

/-- Errors of the execution model, per the spec's error taxonomy. -/
inductive ExecError where
  | concurrentWriteConflict
  | unknownChannel
  | unknownNode
deriving DecidableEq, Repr

/-- Modelled from the spec: application of one fan-out step's writes to an
overwrite-policy channel (the conflict detection lives in the `langgraph`
library, which raises its `InvalidUpdateError` there) — at most one node
may write an overwrite-channel in a step; two or more writers are a
`ConcurrentWriteConflict` and no value is applied. -/
def applyOverwriteStep (current : Int) (writes : List Int) : Except ExecError Int :=
  match writes with
  | [] => .ok current
  | [w] => .ok w
  | _ :: _ :: _ => .error .concurrentWriteConflict

/-- `node_2_branch` of `state-reducers.mts` (lines 48–51): writes
`{ foo: state.foo + 1 }` to the overwrite channel `foo`. -/
def node_2_branch (foo : Int) : Int :=
  foo + 1

/-- `node_3_branch` of `state-reducers.mts` (lines 53–56): writes
`{ foo: state.foo + 1 }` to the overwrite channel `foo`. -/
def node_3_branch (foo : Int) : Int :=
  foo + 1

/-- The fan-out step of `graphBranch` (`state-reducers.mts` lines 59–85):
`node_2` and `node_3` run in the same step and both write the
overwrite-policy channel `foo`. -/
def graphBranchStep (foo : Int) : Except ExecError Int :=
  applyOverwriteStep foo [node_2_branch foo, node_3_branch foo]

/-- Modelled from the spec: a checkpointed run of the `reactGraphMemory`
agent of `agent-memory.mts` against one conversation identifier (the
executor and the `MemorySaver` checkpointer live in the `langgraph`
library) — the prior snapshot, when present, is the base state (absent, the
`messages` channel starts from its default `[]`); the supplied initial
partial state is applied through the channel's normal merge function (the
append-only `addMessages` of `agent-memory.mts`); each node's returned
messages are then merged in turn; the final value is returned and saved. -/
def runWithMemory (saved : Option (List Message)) (initial : List Message)
    (nodeOutputs : List (List Message)) : List Message :=
  let base := saved.getD []
  let start := addMessagesSimple base (.many initial)
  nodeOutputs.foldl (fun acc out => addMessagesSimple acc (.many out)) start

-- ---------------------------------------------------------------------------
-- Identifier bookkeeping for the identifier-aware reducer
-- ---------------------------------------------------------------------------

/-- The identifiers actually present (`some`) among a list of messages. -/
def someIds (l : List Message) : List String :=
  l.filterMap (fun m => m.id)

/-- The identifiers of the tombstones of an update, in order. -/
def tombIds : List MsgItem → List String
  | [] => []
  | .remove rid :: rest => rid :: tombIds rest
  | .msg _ :: rest => tombIds rest

/-- The non-tombstone messages of an update, in order. -/
def freshMsgs : List MsgItem → List Message
  | [] => []
  | .remove _ :: rest => freshMsgs rest
  | .msg m :: rest => m :: freshMsgs rest

/-- Does a message survive the given set of tombstone identifiers? -/
def keepMsg (tids : List String) (m : Message) : Bool :=
  match m.id with
  | some s => !(tids.contains s)
  | none => true

/-- The last non-tombstone message of the update carrying identifier `x`,
if any: after the reducer has processed the whole update, this is the value
sitting wherever identifier `x` ended up. -/
def lastUpsert : List MsgItem → String → Option Message
  | [], _ => none
  | .remove _ :: rest, x => lastUpsert rest x
  | .msg m :: rest, x =>
    match lastUpsert rest x with
    | some r => some r
    | none => if m.id = some x then some m else none

/-- Replace a message by the update's last message carrying the same
identifier, when there is one. -/
def overrideBy (u : List MsgItem) (m : Message) : Message :=
  match m.id with
  | some x => (lastUpsert u x).getD m
  | none => m

-- ---------------------------------------------------------------------------
-- Basic lemmas about the embedded reducers
-- ---------------------------------------------------------------------------

theorem addMessagesL_nil (current : List Message) :
    addMessagesL current [] = current := rfl

theorem addMessagesL_cons (current : List Message) (item : MsgItem)
    (rest : List MsgItem) :
    addMessagesL current (item :: rest) = addMessagesL (applyItem current item) rest := rfl

theorem applyConcatUpdates_spec (init : List Int) (us : List NumUpdate) :
    applyConcatUpdates init us = init ++ (us.map normalizeToSequence).flatten := by
  induction us generalizing init with
  | nil => simp [applyConcatUpdates]
  | cons u us ih =>
    simp [applyConcatUpdates, concatReducer, ih, List.append_assoc]

theorem containsId_eq_true_of_mem {l : List Message} {b : Message} {s : String}
    (hb : b ∈ l) (hid : b.id = some s) : containsId l s = true := by
  simp only [containsId, List.any_eq_true]
  exact ⟨b, hb, by simp [hid]⟩

theorem containsId_eq_false {l : List Message} {s : String}
    (h : ∀ m ∈ l, m.id ≠ some s) : containsId l s = false := by
  simp only [containsId, List.any_eq_false]
  intro m hm
  simpa using h m hm

theorem removeById_of_forall_ne {l : List Message} {rid : String}
    (h : ∀ m ∈ l, m.id ≠ some rid) : removeById l rid = l := by
  induction l with
  | nil => rfl
  | cons x xs ih =>
    have hx : x.id ≠ some rid := h x (by simp)
    simp only [removeById, if_neg hx]
    rw [ih (fun m hm => h m (by simp [hm]))]

theorem replaceById_decomp {l1 l2 : List Message} {b m : Message} {s : String}
    (hb : b.id = some s) (hl1 : ∀ a ∈ l1, a.id ≠ some s) :
    replaceById (l1 ++ b :: l2) s m = l1 ++ m :: l2 := by
  induction l1 with
  | nil => simp [replaceById, hb]
  | cons a l1 ih =>
    have ha : a.id ≠ some s := hl1 a (by simp)
    simp only [List.cons_append, replaceById, if_neg ha]
    exact congrArg (a :: ·) (ih (fun a' ha' => hl1 a' (by simp [ha'])))

theorem runWithMemory_foldl (outs : List (List Message)) (s : List Message) :
    outs.foldl (fun acc out => addMessagesSimple acc (.many out)) s
      = s ++ outs.flatten := by
  induction outs generalizing s with
  | nil => simp
  | cons o os ih =>
    rw [List.foldl_cons, ih]
    simp [addMessagesSimple, normalizeSimple, List.append_assoc]

theorem runWithMemory_spec (saved : Option (List Message)) (initial : List Message)
    (outs : List (List Message)) :
    runWithMemory saved initial outs = saved.getD [] ++ initial ++ outs.flatten := by
  show outs.foldl (fun acc out => addMessagesSimple acc (.many out))
      (addMessagesSimple (saved.getD []) (.many initial)) = _
  rw [runWithMemory_foldl]
  simp [addMessagesSimple, normalizeSimple, List.append_assoc]

theorem mem_someIds {l : List Message} {s : String} :
    s ∈ someIds l ↔ ∃ m ∈ l, m.id = some s := by
  simp [someIds, List.mem_filterMap]

theorem someIds_append (l1 l2 : List Message) :
    someIds (l1 ++ l2) = someIds l1 ++ someIds l2 :=
  List.filterMap_append l1 l2 _

theorem someIds_sublist {l1 l2 : List Message} (h : l1.Sublist l2) :
    (someIds l1).Sublist (someIds l2) :=
  List.Sublist.filterMap _ h

theorem containsId_iff {l : List Message} {s : String} :
    containsId l s = true ↔ s ∈ someIds l := by
  simp only [containsId, List.any_eq_true, mem_someIds]
  constructor
  · rintro ⟨m, hm, he⟩
    exact ⟨m, hm, by simpa using he⟩
  · rintro ⟨m, hm, he⟩
    exact ⟨m, hm, by simp [he]⟩

theorem containsId_eq_false_of_not_mem {l : List Message} {s : String}
    (h : s ∉ someIds l) : containsId l s = false := by
  cases hc : containsId l s with
  | false => rfl
  | true => exact absurd (containsId_iff.mp hc) h

theorem keepMsg_nil (m : Message) : keepMsg [] m = true := by
  cases h : m.id <;> simp [keepMsg, h]

theorem keepMsg_cons (rid : String) (tids : List String) (m : Message) :
    keepMsg (rid :: tids) m = (keepMsg tids m && !(m.id == some rid)) := by
  cases h : m.id with
  | none => simp [keepMsg, h]
  | some s =>
    simp only [keepMsg, h, List.contains_cons, Option.some.injEq]
    by_cases hs : s = rid
    · subst hs
      simp
    · have h1 : (s == rid) = false := by simpa using hs
      have h2 : (s = rid) = False := by simp [hs]
      simp [h1, h2]

/-- Under distinct present identifiers, dropping the first match equals
filtering the (at most one) match away. -/
theorem removeById_eq_filter {l : List Message} {rid : String}
    (h : (someIds l).Nodup) :
    removeById l rid = l.filter (fun m => !(m.id == some rid)) := by
  induction l with
  | nil => rfl
  | cons x xs ih =>
    by_cases hx : x.id = some rid
    · have hxs : ∀ m ∈ xs, m.id ≠ some rid := by
        intro m hm he
        have : rid ∈ someIds xs := mem_someIds.mpr ⟨m, hm, he⟩
        have hcons : someIds (x :: xs) = rid :: someIds xs := by
          simp [someIds, List.filterMap_cons, hx]
        rw [hcons] at h
        exact (List.nodup_cons.mp h).1 this
      have hfilter : xs.filter (fun m => !(m.id == some rid)) = xs :=
        List.filter_eq_self.mpr (fun m hm => by simpa using hxs m hm)
      simp [removeById, hx, List.filter_cons, hfilter]
    · have htail : (someIds xs).Nodup := by
        refine List.Nodup.sublist (someIds_sublist ?_) h
        exact List.sublist_cons_self x xs
      have hbeq : (x.id == some rid) = false := by simpa using hx
      simp [removeById, hx, List.filter_cons, hbeq, ih htail]

/-- Dropping the first match never adds elements: the result is a sublist. -/
theorem removeById_sublist (l : List Message) (rid : String) :
    (removeById l rid).Sublist l := by
  induction l with
  | nil => simp [removeById]
  | cons x xs ih =>
    by_cases hx : x.id = some rid
    · simp [removeById, hx, List.sublist_cons_self]
    · simpa [removeById, hx] using ih.cons₂ x

/-- C2 (amended, characterization): assuming the current messages'
present identifiers are pairwise distinct and each update message's
identifier is absent or fresh — not an identifier of a current message, of
a tombstone of the update, or of another update message — the
identifier-aware merge removes each current message whose identifier
matches a tombstone of the update, appends the update's messages at the
end in the order supplied, and preserves the relative order of the
remaining current messages. -/
theorem addMessagesL_characterization (update : List MsgItem) (current : List Message)
    (hnodup : (someIds current).Nodup)
    (hfresh : ∀ m ∈ freshMsgs update, ∀ s, m.id = some s →
        s ∉ someIds current ∧ s ∉ tombIds update)
    (hdist : (someIds (freshMsgs update)).Nodup) :
    addMessagesL current update
      = current.filter (keepMsg (tombIds update)) ++ freshMsgs update := by
  induction update generalizing current with
  | nil =>
    have : current.filter (keepMsg []) = current :=
      List.filter_eq_self.mpr (fun m _ => keepMsg_nil m)
    simp [addMessagesL, tombIds, freshMsgs, this]
  | cons item rest ih =>
    cases item with
    | remove rid =>
      rw [addMessagesL_cons]
      have h1 : applyItem current (.remove rid)
          = current.filter (fun m => !(m.id == some rid)) := by
        simp [applyItem, removeById_eq_filter hnodup]
      have hsub : (current.filter (fun m => !(m.id == some rid))).Sublist current :=
        List.filter_sublist current
      have hnodup' : (someIds (current.filter (fun m => !(m.id == some rid)))).Nodup :=
        List.Nodup.sublist (someIds_sublist hsub) hnodup
      have hfresh' : ∀ m ∈ freshMsgs rest, ∀ s, m.id = some s →
          s ∉ someIds (current.filter (fun m => !(m.id == some rid)))
            ∧ s ∉ tombIds rest := by
        intro m hm s hs
        have := hfresh m (by simpa [freshMsgs] using hm) s hs
        refine ⟨fun hmem => this.1 ?_, fun hmem => this.2 (by simp [tombIds, hmem])⟩
        exact (someIds_sublist hsub).mem hmem
      have hdist' : (someIds (freshMsgs rest)).Nodup := by
        simpa [freshMsgs] using hdist
      rw [h1, ih _ hnodup' hfresh' hdist']
      have hmerge : (current.filter (fun m => !(m.id == some rid))).filter
            (keepMsg (tombIds rest))
          = current.filter (keepMsg (tombIds (.remove rid :: rest))) := by
        rw [List.filter_filter]
        refine List.filter_congr (fun m _ => ?_)
        show (keepMsg (tombIds rest) m && !(m.id == some rid))
            = keepMsg (rid :: tombIds rest) m
        rw [keepMsg_cons]
      rw [hmerge]
      simp [freshMsgs]
    | msg m =>
      rw [addMessagesL_cons]
      have hmhd : m ∈ freshMsgs (.msg m :: rest) := by simp [freshMsgs]
      have h1 : applyItem current (.msg m) = current ++ [m] := by
        cases hid : m.id with
        | none => simp [applyItem, hid]
        | some s =>
          have hs : s ∉ someIds current := ((hfresh m hmhd s hid)).1
          have hc : containsId current s = false := containsId_eq_false_of_not_mem hs
          by_cases he : s = ""
          · simp [applyItem, hid, he]
          · simp [applyItem, hid, he, hc]
      have hnodup' : (someIds (current ++ [m])).Nodup := by
        rw [someIds_append]
        cases hid : m.id with
        | none => simpa [someIds, List.filterMap_cons, hid] using hnodup
        | some s =>
          have hs : s ∉ someIds current := ((hfresh m hmhd s hid)).1
          have : someIds [m] = [s] := by simp [someIds, List.filterMap_cons, hid]
          rw [this]
          simp [List.nodup_append, hnodup, hs]
      have hfresh' : ∀ m' ∈ freshMsgs rest, ∀ s', m'.id = some s' →
          s' ∉ someIds (current ++ [m]) ∧ s' ∉ tombIds rest := by
        intro m' hm' s' hs'
        have hbase := hfresh m' (by simp [freshMsgs, hm']) s' hs'
        refine ⟨?_, fun hmem => hbase.2 (by simpa [tombIds] using hmem)⟩
        rw [someIds_append]
        simp only [List.mem_append]
        rintro (hmem | hmem)
        · exact hbase.1 hmem
        · cases hid : m.id with
          | none => simp [someIds, List.filterMap_cons, hid] at hmem
          | some s =>
            have hss : s' = s := by
              simpa [someIds, List.filterMap_cons, hid] using hmem
            subst hss
            have hmem' : s' ∈ someIds (freshMsgs rest) :=
              mem_someIds.mpr ⟨m', hm', hs'⟩
            have hids : someIds (freshMsgs (.msg m :: rest))
                = s' :: someIds (freshMsgs rest) := by
              simp [freshMsgs, someIds, List.filterMap_cons, hid]
            rw [hids] at hdist
            exact (List.nodup_cons.mp hdist).1 hmem'
      have hdist' : (someIds (freshMsgs rest)).Nodup := by
        have hsub : (freshMsgs rest).Sublist (freshMsgs (.msg m :: rest)) := by
          simp [freshMsgs, List.sublist_cons_self]
        exact List.Nodup.sublist (someIds_sublist hsub) hdist
      rw [h1, ih _ hnodup' hfresh' hdist']
      have hkeep : keepMsg (tombIds rest) m = true := by
        cases hid : m.id with
        | none => simp [keepMsg, hid]
        | some s =>
          have hs : s ∉ tombIds (.msg m :: rest) := ((hfresh m hmhd s hid)).2
          have : s ∉ tombIds rest := by simpa [tombIds] using hs
          simp [keepMsg, hid, this]
      rw [List.filter_append]
      have : List.filter (keepMsg (tombIds rest)) [m] = [m] := by
        simp [List.filter_cons, hkeep]
      rw [this]
      simp [tombIds, freshMsgs]

-- ---------------------------------------------------------------------------
-- Lemmas towards idempotence of the identifier-aware reducer
-- ---------------------------------------------------------------------------

theorem mem_replaceById {s : List Message} {y : String} {m e : Message}
    (h : e ∈ replaceById s y m) : e ∈ s ∨ e = m := by
  induction s with
  | nil => simp [replaceById] at h
  | cons a as ih =>
    by_cases ha : a.id = some y
    · simp only [replaceById, if_pos ha, List.mem_cons] at h
      rcases h with h | h
      · exact Or.inr h
      · exact Or.inl (by simp [h])
    · simp only [replaceById, if_neg ha, List.mem_cons] at h
      rcases h with h | h
      · exact Or.inl (by simp [h])
      · rcases ih h with h' | h'
        · exact Or.inl (by simp [h'])
        · exact Or.inr h'

theorem mem_applyItem {s : List Message} {item : MsgItem} {e : Message}
    (h : e ∈ applyItem s item) : e ∈ s ∨ ∃ m', item = .msg m' ∧ e = m' := by
  cases item with
  | remove rid =>
    exact Or.inl ((removeById_sublist s rid).mem h)
  | msg m =>
    cases hid : m.id with
    | none =>
      simp only [applyItem, hid, List.mem_append, List.mem_singleton] at h
      rcases h with h | h
      · exact Or.inl h
      · exact Or.inr ⟨m, rfl, h⟩
    | some x =>
      by_cases he : x = ""
      · simp only [applyItem, hid, if_pos he, List.mem_append, List.mem_singleton] at h
        rcases h with h | h
        · exact Or.inl h
        · exact Or.inr ⟨m, rfl, h⟩
      · by_cases hc : containsId s x
        · simp only [applyItem, hid, if_neg he, if_pos hc] at h
          rcases mem_replaceById h with h' | h'
          · exact Or.inl h'
          · exact Or.inr ⟨m, rfl, h'⟩
        · simp only [applyItem, hid, if_neg he, if_neg hc, List.mem_append,
            List.mem_singleton] at h
          rcases h with h | h
          · exact Or.inl h
          · exact Or.inr ⟨m, rfl, h⟩

theorem someIds_replaceById {s : List Message} {x : String} {m : Message}
    (hm : m.id = some x) : someIds (replaceById s x m) = someIds s := by
  induction s with
  | nil => rfl
  | cons a as ih =>
    by_cases ha : a.id = some x
    · rw [show replaceById (a :: as) x m = m :: as by simp [replaceById, ha]]
      simp [someIds, List.filterMap_cons, hm, ha]
    · rw [show replaceById (a :: as) x m = a :: replaceById as x m by
        simp [replaceById, ha]]
      cases haid : a.id with
      | none => simpa [someIds, List.filterMap_cons, haid] using ih
      | some y => simpa [someIds, List.filterMap_cons, haid] using ih

theorem someIds_applyItem_nodup {s : List Message} {item : MsgItem}
    (hnodup : (someIds s).Nodup)
    (htruthy : ∀ m', item = .msg m' → ∀ y, m'.id = some y → y ≠ "") :
    (someIds (applyItem s item)).Nodup := by
  cases item with
  | remove rid =>
    exact List.Nodup.sublist (someIds_sublist (removeById_sublist s rid)) hnodup
  | msg m =>
    cases hid : m.id with
    | none =>
      simp only [applyItem, hid, someIds_append]
      simpa [someIds, List.filterMap_cons, hid] using hnodup
    | some x =>
      have he : x ≠ "" := htruthy m rfl x hid
      by_cases hc : containsId s x
      · simp only [applyItem, hid, if_neg he, if_pos hc]
        rw [someIds_replaceById hid]
        exact hnodup
      · have hx : x ∉ someIds s := fun hmem => by
          rw [containsId_iff.mpr hmem] at hc
          exact hc rfl
        simp only [applyItem, hid, if_neg he, if_neg hc, someIds_append]
        have : someIds [m] = [x] := by simp [someIds, List.filterMap_cons, hid]
        rw [this]
        simp [List.nodup_append, hnodup, hx]

theorem someIds_addMessagesL_nodup {u : List MsgItem} {s : List Message}
    (hnodup : (someIds s).Nodup)
    (htruthy : ∀ m ∈ freshMsgs u, ∀ y, m.id = some y → y ≠ "") :
    (someIds (addMessagesL s u)).Nodup := by
  induction u generalizing s with
  | nil => exact hnodup
  | cons item rest ih =>
    rw [addMessagesL_cons]
    refine ih ?_ (fun m hm => htruthy m ?_)
    · refine someIds_applyItem_nodup hnodup (fun m' hitem y hy => ?_)
      subst hitem
      exact htruthy m' (by simp [freshMsgs]) y hy
    · cases item <;> simp [freshMsgs, hm]

theorem mem_someIds_removeById_of_ne {s : List Message} {x rid : String}
    (hne : x ≠ rid) (h : x ∈ someIds s) : x ∈ someIds (removeById s rid) := by
  induction s with
  | nil => simpa [someIds] using h
  | cons a as ih =>
    rcases mem_someIds.mp h with ⟨m, hm, hmid⟩
    rcases List.mem_cons.mp hm with rfl | hm'
    · by_cases ha : m.id = some rid
      · exfalso
        rw [ha] at hmid
        injection hmid with hxr
        exact hne hxr.symm
      · rw [show removeById (m :: as) rid = m :: removeById as rid by
          simp [removeById, ha]]
        exact mem_someIds.mpr ⟨m, by simp, hmid⟩
    · by_cases ha : a.id = some rid
      · rw [show removeById (a :: as) rid = as by simp [removeById, ha]]
        exact mem_someIds.mpr ⟨m, hm', hmid⟩
      · rw [show removeById (a :: as) rid = a :: removeById as rid by
          simp [removeById, ha]]
        have hx : x ∈ someIds (removeById as rid) :=
          ih (mem_someIds.mpr ⟨m, hm', hmid⟩)
        rcases mem_someIds.mp hx with ⟨m'', hm'', hmid''⟩
        exact mem_someIds.mpr ⟨m'', by simp [hm''], hmid''⟩

theorem mem_someIds_addMessagesL {u : List MsgItem} {s : List Message} {x : String}
    (h : x ∈ someIds s) (htomb : x ∉ tombIds u) :
    x ∈ someIds (addMessagesL s u) := by
  induction u generalizing s with
  | nil => exact h
  | cons item rest ih =>
    rw [addMessagesL_cons]
    have htomb' : x ∉ tombIds rest := by
      cases item <;> simp [tombIds] at htomb ⊢ <;> tauto
    refine ih ?_ htomb'
    cases item with
    | remove rid =>
      have hne : x ≠ rid := by simp [tombIds] at htomb; tauto
      exact mem_someIds_removeById_of_ne hne h
    | msg m =>
      cases hid : m.id with
      | none => simpa [applyItem, hid, someIds_append] using Or.inl h
      | some y =>
        by_cases he : y = ""
        · simpa [applyItem, hid, if_pos he, someIds_append] using Or.inl h
        · by_cases hc : containsId s y
          · simpa [applyItem, hid, if_neg he, if_pos hc, someIds_replaceById hid] using h
          · simpa [applyItem, hid, if_neg he, if_neg hc, someIds_append] using Or.inl h

theorem not_mem_someIds_addMessagesL {u : List MsgItem} {s : List Message} {x : String}
    (h : x ∉ someIds s) (hmsg : ∀ m ∈ freshMsgs u, m.id ≠ some x) :
    x ∉ someIds (addMessagesL s u) := by
  induction u generalizing s with
  | nil => exact h
  | cons item rest ih =>
    rw [addMessagesL_cons]
    have h1 : x ∉ someIds (applyItem s item) := by
      intro hmem
      rcases mem_someIds.mp hmem with ⟨e, he, heid⟩
      rcases mem_applyItem he with he' | ⟨m', hitem, hem⟩
      · exact h (mem_someIds.mpr ⟨e, he', heid⟩)
      · subst hitem
        exact hmsg m' (by simp [freshMsgs]) (hem ▸ heid)
    have h2 : ∀ m ∈ freshMsgs rest, m.id ≠ some x := by
      intro m hm
      refine hmsg m ?_
      cases item <;> simp [freshMsgs, hm]
    exact ih h1 h2

theorem not_mem_someIds_removeById {s : List Message} {rid : String}
    (hnodup : (someIds s).Nodup) : rid ∉ someIds (removeById s rid) := by
  rw [removeById_eq_filter hnodup]
  intro hmem
  rcases mem_someIds.mp hmem with ⟨m, hm, hmid⟩
  have := (List.mem_filter.mp hm).2
  simp [hmid] at this

theorem tombstoned_removed {u : List MsgItem} {s : List Message} {rid : String}
    (hnodup : (someIds s).Nodup)
    (htruthy : ∀ m ∈ freshMsgs u, ∀ y, m.id = some y → y ≠ "")
    (hrid : rid ∈ tombIds u)
    (hmsg : ∀ m ∈ freshMsgs u, m.id ≠ some rid) :
    rid ∉ someIds (addMessagesL s u) := by
  induction u generalizing s with
  | nil => simp [tombIds] at hrid
  | cons item rest ih =>
    rw [addMessagesL_cons]
    cases item with
    | remove r =>
      by_cases hr : rid ∈ tombIds rest
      · have hnodup' : (someIds (applyItem s (.remove r))).Nodup :=
          List.Nodup.sublist (someIds_sublist (removeById_sublist s r)) hnodup
        exact ih hnodup' (fun m hm => htruthy m (by simp [freshMsgs, hm])) hr
          (fun m hm => hmsg m (by simp [freshMsgs, hm]))
      · have hrr : rid = r := by
          simp [tombIds] at hrid
          tauto
        subst hrr
        refine not_mem_someIds_addMessagesL (not_mem_someIds_removeById hnodup) ?_
        exact fun m hm => hmsg m (by simp [freshMsgs, hm])
    | msg m =>
      have hr : rid ∈ tombIds rest := by simpa [tombIds] using hrid
      have hnodup' : (someIds (applyItem s (.msg m))).Nodup := by
        refine someIds_applyItem_nodup hnodup (fun m' hitem y hy => ?_)
        have hmm : m = m' := by injection hitem
        subst hmm
        exact htruthy m (by simp [freshMsgs]) y hy
      exact ih hnodup' (fun m' hm' => htruthy m' (by simp [freshMsgs, hm'])) hr
        (fun m' hm' => hmsg m' (by simp [freshMsgs, hm']))

theorem map_eq_self_of {α : Type} {l : List α} {f : α → α}
    (h : ∀ a ∈ l, f a = a) : l.map f = l := by
  induction l with
  | nil => rfl
  | cons a as ih =>
    simp only [List.map_cons, h a (by simp)]
    rw [ih (fun a' ha' => h a' (by simp [ha']))]

theorem exists_decomp_of_mem_someIds {r : List Message} {x : String}
    (h : x ∈ someIds r) :
    ∃ l1 b l2, r = l1 ++ b :: l2 ∧ b.id = some x ∧ ∀ a ∈ l1, a.id ≠ some x := by
  induction r with
  | nil => simp [someIds] at h
  | cons a as ih =>
    by_cases ha : a.id = some x
    · exact ⟨[], a, as, by simp, ha, by simp⟩
    · have h' : x ∈ someIds as := by
        rcases mem_someIds.mp h with ⟨m, hm, hmid⟩
        rcases List.mem_cons.mp hm with rfl | hm'
        · exact absurd hmid ha
        · exact mem_someIds.mpr ⟨m, hm', hmid⟩
      obtain ⟨l1, b, l2, hr, hb, hl1⟩ := ih h'
      refine ⟨a :: l1, b, l2, by simp [hr], hb, ?_⟩
      intro a' ha'
      rcases List.mem_cons.mp ha' with rfl | ha''
      · exact ha
      · exact hl1 a' ha''

theorem not_mem_someIds_right_of_nodup {l1 l2 : List Message} {b : Message}
    {x : String} (hnodup : (someIds (l1 ++ b :: l2)).Nodup) (hb : b.id = some x) :
    x ∉ someIds l2 := by
  rw [someIds_append] at hnodup
  have hcons : someIds (b :: l2) = x :: someIds l2 := by
    simp [someIds, List.filterMap_cons, hb]
  rw [hcons] at hnodup
  exact (List.nodup_cons.mp (List.nodup_append.mp hnodup).2.1).1

theorem lastUpsert_remove_cons (rid x : String) (rest : List MsgItem) :
    lastUpsert (.remove rid :: rest) x = lastUpsert rest x := rfl

theorem lastUpsert_msg_cons (m : Message) (x : String) (rest : List MsgItem) :
    lastUpsert (.msg m :: rest) x
      = (match lastUpsert rest x with
         | some r => some r
         | none => if m.id = some x then some m else none) := rfl

theorem lastUpsert_msg_cons_ne {m : Message} {x : String} {rest : List MsgItem}
    (h : m.id ≠ some x) : lastUpsert (.msg m :: rest) x = lastUpsert rest x := by
  rw [lastUpsert_msg_cons]
  cases hrest : lastUpsert rest x with
  | some r => rfl
  | none => simp [h]

theorem lastUpsert_eq_none_iff {u : List MsgItem} {x : String} :
    lastUpsert u x = none ↔ ∀ m ∈ freshMsgs u, m.id ≠ some x := by
  induction u with
  | nil => simp [lastUpsert, freshMsgs]
  | cons item rest ih =>
    cases item with
    | remove rid =>
      rw [lastUpsert_remove_cons]
      simpa [freshMsgs] using ih
    | msg m =>
      rw [lastUpsert_msg_cons]
      cases hrest : lastUpsert rest x with
      | some r =>
        simp only []
        constructor
        · intro h; exact absurd h (by simp)
        · intro h
          have h0 := ih.mpr (fun m' hm' => h m' (by simp [freshMsgs, hm']))
          rw [hrest] at h0
          exact absurd h0 (by simp)
      | none =>
        simp only []
        by_cases hm : m.id = some x
        · rw [if_pos hm]
          constructor
          · intro h; exact absurd h (by simp)
          · intro h; exact absurd hm (h m (by simp [freshMsgs]))
        · rw [if_neg hm]
          constructor
          · intro _ m' hm'
            rcases List.mem_cons.mp (by simpa [freshMsgs] using hm') with rfl | hm''
            · exact hm
            · exact (ih.mp hrest) m' hm''
          · intro _; rfl

theorem applyItem_msg_all_eq {s : List Message} {m : Message} {x : String}
    (hnodup : (someIds s).Nodup) (hm : m.id = some x) (hx : x ≠ "") :
    ∀ e ∈ applyItem s (.msg m), e.id = some x → e = m := by
  intro e he heid
  by_cases hc : containsId s x
  · rw [show applyItem s (.msg m) = replaceById s x m by
      simp [applyItem, hm, hx, hc]] at he
    obtain ⟨l1, b, l2, hr, hb, hl1⟩ :=
      exists_decomp_of_mem_someIds (containsId_iff.mp hc)
    subst hr
    rw [replaceById_decomp hb hl1] at he
    have hl2 : x ∉ someIds l2 := not_mem_someIds_right_of_nodup hnodup hb
    rcases List.mem_append.mp he with he' | he'
    · exact absurd heid (hl1 e he')
    · rcases List.mem_cons.mp he' with rfl | he''
      · rfl
      · exact absurd (mem_someIds.mpr ⟨e, he'', heid⟩) hl2
  · rw [show applyItem s (.msg m) = s ++ [m] by simp [applyItem, hm, hx, hc]] at he
    rcases List.mem_append.mp he with he' | he'
    · exact absurd (containsId_eq_true_of_mem he' heid) (by simpa using hc)
    · simpa using he'

theorem addMessagesL_preserve_all {rest : List MsgItem} {t : List Message}
    {x : String} {m0 : Message}
    (hall : ∀ e ∈ t, e.id = some x → e = m0)
    (hmsg : ∀ m ∈ freshMsgs rest, m.id ≠ some x) :
    ∀ e ∈ addMessagesL t rest, e.id = some x → e = m0 := by
  induction rest generalizing t with
  | nil => exact hall
  | cons item rest ih =>
    rw [addMessagesL_cons]
    have hall' : ∀ e ∈ applyItem t item, e.id = some x → e = m0 := by
      intro e he heid
      rcases mem_applyItem he with he' | ⟨m', hitem, hem⟩
      · exact hall e he' heid
      · subst hitem
        exact absurd (hem ▸ heid) (hmsg m' (by simp [freshMsgs]))
    refine ih hall' (fun m hm => hmsg m ?_)
    cases item <;> simp [freshMsgs, hm]

theorem addMessagesL_lastUpsert_inv {u : List MsgItem} {s : List Message}
    (hnodup : (someIds s).Nodup)
    (htruthy : ∀ m ∈ freshMsgs u, ∀ y, m.id = some y → y ≠ "") :
    ∀ e ∈ addMessagesL s u, ∀ x, e.id = some x →
      ∀ mm, lastUpsert u x = some mm → e = mm := by
  induction u generalizing s with
  | nil =>
    intro e he x heid mm hmm
    exact absurd hmm (by simp [lastUpsert])
  | cons item rest ih =>
    intro e he x heid mm hmm
    rw [addMessagesL_cons] at he
    cases item with
    | remove rid =>
      have hnodup' : (someIds (applyItem s (.remove rid))).Nodup :=
        List.Nodup.sublist (someIds_sublist (removeById_sublist s rid)) hnodup
      rw [lastUpsert_remove_cons] at hmm
      exact ih hnodup' (fun m hm => htruthy m (by simp [freshMsgs, hm]))
        e he x heid mm hmm
    | msg m0 =>
      have htruthy' : ∀ m ∈ freshMsgs rest, ∀ y, m.id = some y → y ≠ "" :=
        fun m hm => htruthy m (by simp [freshMsgs, hm])
      have hnodup' : (someIds (applyItem s (.msg m0))).Nodup := by
        refine someIds_applyItem_nodup hnodup (fun m' hitem y hy => ?_)
        have hmm0 : m0 = m' := by injection hitem
        subst hmm0
        exact htruthy m0 (by simp [freshMsgs]) y hy
      cases hrest : lastUpsert rest x with
      | some r =>
        rw [lastUpsert_msg_cons, hrest] at hmm
        have hmr : r = mm := by injection hmm
        subst hmr
        exact ih hnodup' htruthy' e he x heid r hrest
      | none =>
        rw [lastUpsert_msg_cons, hrest] at hmm
        by_cases hm0 : m0.id = some x
        · rw [if_pos hm0] at hmm
          have hmmm : m0 = mm := by injection hmm
          subst hmmm
          have hx : x ≠ "" := htruthy m0 (by simp [freshMsgs]) x hm0
          have hall : ∀ e' ∈ applyItem s (.msg m0), e'.id = some x → e' = m0 :=
            applyItem_msg_all_eq hnodup hm0 hx
          have hmsgr : ∀ m ∈ freshMsgs rest, m.id ≠ some x :=
            lastUpsert_eq_none_iff.mp hrest
          exact addMessagesL_preserve_all hall hmsgr e he heid
        · rw [if_neg hm0] at hmm
          exact absurd hmm (by simp)

theorem msg_id_present {u : List MsgItem} {s : List Message} {m : Message}
    {x : String} (hm : m ∈ freshMsgs u) (hx : m.id = some x)
    (htomb : x ∉ tombIds u) : x ∈ someIds (addMessagesL s u) := by
  induction u generalizing s with
  | nil => simp [freshMsgs] at hm
  | cons item rest ih =>
    rw [addMessagesL_cons]
    cases item with
    | remove rid =>
      have hm' : m ∈ freshMsgs rest := by simpa [freshMsgs] using hm
      have htomb' : x ∉ tombIds rest := by
        simp [tombIds] at htomb
        tauto
      exact ih hm' htomb'
    | msg m1 =>
      rcases (by simpa [freshMsgs] using hm : m = m1 ∨ m ∈ freshMsgs rest) with
        heq | hm'
      · subst heq
        have hpres : x ∈ someIds (applyItem s (.msg m)) := by
          by_cases he : x = ""
          · rw [show applyItem s (.msg m) = s ++ [m] by simp [applyItem, hx, he]]
            rw [someIds_append]
            simp [someIds, List.filterMap_cons, hx]
          · by_cases hc : containsId s x
            · rw [show applyItem s (.msg m) = replaceById s x m by
                simp [applyItem, hx, he, hc]]
              rw [someIds_replaceById hx]
              exact containsId_iff.mp hc
            · rw [show applyItem s (.msg m) = s ++ [m] by
                simp [applyItem, hx, he, hc]]
              rw [someIds_append]
              simp [someIds, List.filterMap_cons, hx]
        exact mem_someIds_addMessagesL hpres (by simpa [tombIds] using htomb)
      · exact ih hm' (by simpa [tombIds] using htomb)

theorem overrideBy_remove_cons (rid : String) (rest : List MsgItem) (a : Message) :
    overrideBy (.remove rid :: rest) a = overrideBy rest a := by
  cases h : a.id <;> simp [overrideBy, lastUpsert_remove_cons, h]

theorem overrideBy_msg_cons_ne {m0 a : Message} {x : String} {rest : List MsgItem}
    (hm0 : m0.id = some x) (ha : a.id ≠ some x) :
    overrideBy (.msg m0 :: rest) a = overrideBy rest a := by
  cases h : a.id with
  | none => simp [overrideBy, h]
  | some y =>
    have hne : m0.id ≠ some y := by
      rw [hm0]
      intro hc
      injection hc with hc'
      exact ha (by rw [h, hc'])
    simp [overrideBy, h, lastUpsert_msg_cons_ne hne]

/-- When every tombstone of the update misses the state and every message
of the update carries a non-empty identifier already present in the state,
applying the update only replaces in place: the result is the elementwise
override of the state by the update's last value per identifier. -/
theorem addMessagesL_stable {u : List MsgItem} {r : List Message}
    (hnodup : (someIds r).Nodup)
    (htomb : ∀ rid ∈ tombIds u, rid ∉ someIds r)
    (hmsg : ∀ m ∈ freshMsgs u, ∃ s, m.id = some s ∧ s ≠ "" ∧ s ∈ someIds r) :
    addMessagesL r u = r.map (overrideBy u) := by
  induction u generalizing r with
  | nil =>
    rw [addMessagesL_nil]
    symm
    refine map_eq_self_of (fun a _ => ?_)
    cases h : a.id <;> simp [overrideBy, lastUpsert, h]
  | cons item rest ih =>
    cases item with
    | remove rid =>
      rw [addMessagesL_cons]
      have hnm : rid ∉ someIds r := htomb rid (by simp [tombIds])
      have hre : applyItem r (.remove rid) = r := by
        show removeById r rid = r
        exact removeById_of_forall_ne
          (fun m hm heq => hnm (mem_someIds.mpr ⟨m, hm, heq⟩))
      rw [hre, ih hnodup (fun r' hr' => htomb r' (by simp [tombIds, hr']))
        (fun m hm => hmsg m (by simp [freshMsgs, hm]))]
      exact (List.map_congr_left (fun a _ => (overrideBy_remove_cons rid rest a).symm)).symm
    | msg m0 =>
      rw [addMessagesL_cons]
      obtain ⟨x, hx, hxne, hxmem⟩ := hmsg m0 (by simp [freshMsgs])
      have hc : containsId r x := containsId_iff.mpr hxmem
      have happ : applyItem r (.msg m0) = replaceById r x m0 := by
        simp [applyItem, hx, hxne, hc]
      obtain ⟨l1, b, l2, hr, hb, hl1⟩ := exists_decomp_of_mem_someIds hxmem
      have hl2 : x ∉ someIds l2 := not_mem_someIds_right_of_nodup (hr ▸ hnodup) hb
      have hrep : replaceById r x m0 = l1 ++ m0 :: l2 := by
        rw [hr]
        exact replaceById_decomp hb hl1
      have hids : someIds (l1 ++ m0 :: l2) = someIds r := by
        rw [hr, someIds_append, someIds_append]
        congr 1
        simp [someIds, List.filterMap_cons, hx, hb]
      have hnodup' : (someIds (l1 ++ m0 :: l2)).Nodup := by
        rw [hids]
        exact hnodup
      have htomb' : ∀ r' ∈ tombIds rest, r' ∉ someIds (l1 ++ m0 :: l2) := by
        intro r' hr'
        rw [hids]
        exact htomb r' (by simp [tombIds, hr'])
      have hmsg' : ∀ m ∈ freshMsgs rest,
          ∃ s, m.id = some s ∧ s ≠ "" ∧ s ∈ someIds (l1 ++ m0 :: l2) := by
        intro m hm
        obtain ⟨s, hs, hne, hmem⟩ := hmsg m (by simp [freshMsgs, hm])
        exact ⟨s, hs, hne, by rw [hids]; exact hmem⟩
      rw [happ, hrep, ih hnodup' htomb' hmsg', hr]
      rw [List.map_append, List.map_append, List.map_cons, List.map_cons]
      have hmap1 : l1.map (overrideBy rest) = l1.map (overrideBy (.msg m0 :: rest)) :=
        List.map_congr_left (fun a ha => (overrideBy_msg_cons_ne hx (hl1 a ha)).symm)
      have hmap2 : l2.map (overrideBy rest) = l2.map (overrideBy (.msg m0 :: rest)) := by
        refine List.map_congr_left (fun a ha => ?_)
        refine (overrideBy_msg_cons_ne hx (fun hc' => ?_)).symm
        exact hl2 (mem_someIds.mpr ⟨a, ha, hc'⟩)
      have hmid : overrideBy rest m0 = overrideBy (.msg m0 :: rest) b := by
        cases hrest : lastUpsert rest x with
        | some r' =>
          simp [overrideBy, hx, hb, lastUpsert_msg_cons, hrest]
        | none =>
          simp [overrideBy, hx, hb, lastUpsert_msg_cons, hrest]
      rw [hmap1, hmap2, hmid]

/-- C3 (amended): the identifier-aware merge is idempotent on replay of an
update, provided the current sequence's present identifiers are pairwise
distinct, every non-tombstone message of the update carries a stable
(present and non-empty) identifier, and no message of the update bears the
same identifier as a tombstone of the update. -/
theorem addMessages_idempotent (current : List Message) (u : List MsgItem)
    (hnodup : (someIds current).Nodup)
    (hstable : ∀ m ∈ freshMsgs u, ∃ s, m.id = some s ∧ s ≠ "")
    (hdisj : ∀ rid ∈ tombIds u, ∀ m ∈ freshMsgs u, m.id ≠ some rid) :
    addMessagesL (addMessagesL current u) u = addMessagesL current u := by
  have htruthy : ∀ m ∈ freshMsgs u, ∀ y, m.id = some y → y ≠ "" := by
    intro m hm y hy
    obtain ⟨s, hs, hne⟩ := hstable m hm
    rw [hy] at hs
    injection hs with h
    subst h
    exact hne
  have hnodup_r : (someIds (addMessagesL current u)).Nodup :=
    someIds_addMessagesL_nodup hnodup htruthy
  have htomb_r : ∀ rid ∈ tombIds u, rid ∉ someIds (addMessagesL current u) :=
    fun rid hrid => tombstoned_removed hnodup htruthy hrid (hdisj rid hrid)
  have hmsg_r : ∀ m ∈ freshMsgs u,
      ∃ s, m.id = some s ∧ s ≠ "" ∧ s ∈ someIds (addMessagesL current u) := by
    intro m hm
    obtain ⟨s, hs, hne⟩ := hstable m hm
    have hnt : s ∉ tombIds u := fun hmem => hdisj s hmem m hm hs
    exact ⟨s, hs, hne, msg_id_present hm hs hnt⟩
  rw [addMessagesL_stable hnodup_r htomb_r hmsg_r]
  refine map_eq_self_of (fun e he => ?_)
  cases heid : e.id with
  | none => simp [overrideBy, heid]
  | some x =>
    cases hlu : lastUpsert u x with
    | none => simp [overrideBy, heid, hlu]
    | some mm =>
      have hee := addMessagesL_lastUpsert_inv hnodup htruthy e he x heid mm hlu
      have h1 : overrideBy u e = mm := by simp [overrideBy, heid, hlu]
      rw [h1]
      exact hee.symm

-- ---------------------------------------------------------------------------
-- Claim theorems
-- ---------------------------------------------------------------------------

/-- C1 (counterexample): the claim as stated fails for equal empty-string
identifiers, which the reducers treat as absent ids: with current sequence
`[A]` where `A.id = some ""` and an update message `B'` bearing the very
same identifier `some ""`, both reducers append `B'` instead of replacing
`A` in place, so the result is `[A, B']`, not `[B']`. -/
theorem C1_counterexample :
    (Message.mk .assistant "hello" (some "")).id
        = (Message.mk .human "hi" (some "")).id
      ∧ addMessagesL [Message.mk .assistant "hello" (some "")]
          [.msg (Message.mk .human "hi" (some ""))]
        = [Message.mk .assistant "hello" (some ""), Message.mk .human "hi" (some "")]
      ∧ addMessagesL [Message.mk .assistant "hello" (some "")]
          [.msg (Message.mk .human "hi" (some ""))]
        ≠ [Message.mk .human "hi" (some "")]
      ∧ addMessagesSR [Message.mk .assistant "hello" (some "")]
          [Message.mk .human "hi" (some "")]
        ≠ [Message.mk .human "hi" (some "")] := by
  refine ⟨rfl, rfl, ?_, ?_⟩ <;> decide

/-- C1 (amended): in both identifier-aware reducers (`src/unnamed/part_002`
and `state-reducers.mts`), an update message whose **non-empty** identifier
equals the identifier of a message already in the sequence replaces the
first such message in place: with current `l1 ++ b :: l2` where `b` bears
the identifier and no earlier message does, the result is `l1 ++ m :: l2` —
same position, all other messages and their relative order untouched.
(A message with an empty-string identifier is treated as identifier-less
and appended instead.) -/
theorem addMessages_replaces_in_place (l1 l2 : List Message) (b m : Message)
    (s : String) (hm : m.id = some s) (hs : s ≠ "") (hb : b.id = some s)
    (hl1 : ∀ a ∈ l1, a.id ≠ some s) :
    addMessagesL (l1 ++ b :: l2) [.msg m] = l1 ++ m :: l2
      ∧ addMessagesSR (l1 ++ b :: l2) [m] = l1 ++ m :: l2 := by
  have hc : containsId (l1 ++ b :: l2) s = true :=
    containsId_eq_true_of_mem (by simp) hb
  have hrep : replaceById (l1 ++ b :: l2) s m = l1 ++ m :: l2 :=
    replaceById_decomp hb hl1
  constructor
  · simp [addMessagesL, applyItem, hm, hs, hc, hrep]
  · simp [addMessagesSR, applyItemSR, hm, hs, hc, hrep]

/-- C1 (witness): concrete replay of the claim's own example — current
`[A, B, C]`, update `B'` with `B`'s identifier `"2"`, result `[A, B', C]`. -/
theorem addMessages_replaces_in_place_witness :
    addMessagesL
        [Message.mk .assistant "one" (some "1"), Message.mk .human "two" (some "2"),
          Message.mk .assistant "three" (some "3")]
        [.msg (Message.mk .human "two-prime" (some "2"))]
      = [Message.mk .assistant "one" (some "1"), Message.mk .human "two-prime" (some "2"),
          Message.mk .assistant "three" (some "3")] :=
  (addMessages_replaces_in_place
    [Message.mk .assistant "one" (some "1")]
    [Message.mk .assistant "three" (some "3")]
    (Message.mk .human "two" (some "2"))
    (Message.mk .human "two-prime" (some "2"))
    "2" rfl (by decide) rfl (by decide)).1

/-- C2 (counterexample): the claim as stated fails when two existing
messages share an identifier — the reducer's `findIndex`/`splice` removes
only the first match. With current `[m1, m2]` both bearing id `"x"` and an
update consisting of the tombstone `"x"`, the claim says each matching
message is removed (result `[]`), but the code leaves `[m2]`, whose
identifier still matches the tombstone. -/
theorem C2_counterexample :
    addMessagesL
        [Message.mk .human "one" (some "x"), Message.mk .human "two" (some "x")]
        [.remove "x"]
      = [Message.mk .human "two" (some "x")]
      ∧ (Message.mk .human "two" (some "x")).id = some "x"
      ∧ addMessagesL
          [Message.mk .human "one" (some "x"), Message.mk .human "two" (some "x")]
          [.remove "x"]
        ≠ [] := by
  refine ⟨by decide, rfl, by decide⟩

/-- C2 (witness): concrete run of the characterization — current
`[m1 (id "a"), m2 (no id)]`, update `[tombstone "a", m3 (fresh id "b"),
m4 (no id)]` gives `[m2, m3, m4]`: the matched message removed, the fresh
and identifier-less messages appended in order, the rest preserved. -/
theorem addMessagesL_characterization_witness :
    addMessagesL
        [Message.mk .human "one" (some "a"), Message.mk .assistant "two" none]
        [.remove "a", .msg (Message.mk .human "three" (some "b")),
          .msg (Message.mk .assistant "four" none)]
      = [Message.mk .assistant "two" none, Message.mk .human "three" (some "b"),
          Message.mk .assistant "four" none] :=
  (addMessagesL_characterization
    [.remove "a", .msg (Message.mk .human "three" (some "b")),
      .msg (Message.mk .assistant "four" none)]
    [Message.mk .human "one" (some "a"), Message.mk .assistant "two" none]
    (by decide)
    (by
      intro m hm s hs
      have hm' : m = Message.mk .human "three" (some "b")
          ∨ m = Message.mk .assistant "four" none := by
        simpa [freshMsgs] using hm
      rcases hm' with rfl | rfl
      · simp only [Message.mk.injEq] at hs ⊢
        have hsb : s = "b" := by
          injection hs with h
          exact h.symm
        subst hsb
        decide
      · exact absurd hs (by simp))
    (by decide)).trans (by decide)

/-- C3 (counterexample): replaying the same update — all of whose messages
carry stable, non-empty identifiers — is not idempotent when a message of
the update reuses the identifier of a tombstone of the same update. With
update `[tombstone "x", a (id "x"), b (id "y")]` on the empty list, the
first application gives `[a, b]` (the tombstone finds nothing), while the
second removes `a`, re-appends it after `b`, and replaces `b` in place,
giving `[b, a]` — a different sequence. -/
theorem C3_counterexample :
    addMessagesL []
        [.remove "x", .msg (Message.mk .human "a" (some "x")),
          .msg (Message.mk .human "b" (some "y"))]
      = [Message.mk .human "a" (some "x"), Message.mk .human "b" (some "y")]
      ∧ addMessagesL
          (addMessagesL []
            [.remove "x", .msg (Message.mk .human "a" (some "x")),
              .msg (Message.mk .human "b" (some "y"))])
          [.remove "x", .msg (Message.mk .human "a" (some "x")),
            .msg (Message.mk .human "b" (some "y"))]
        = [Message.mk .human "b" (some "y"), Message.mk .human "a" (some "x")]
      ∧ addMessagesL
          (addMessagesL []
            [.remove "x", .msg (Message.mk .human "a" (some "x")),
              .msg (Message.mk .human "b" (some "y"))])
          [.remove "x", .msg (Message.mk .human "a" (some "x")),
            .msg (Message.mk .human "b" (some "y"))]
        ≠ addMessagesL []
            [.remove "x", .msg (Message.mk .human "a" (some "x")),
              .msg (Message.mk .human "b" (some "y"))] := by
  refine ⟨by decide, by decide, by decide⟩

/-- C3 (witness): concrete replay — current `[m1 (id "a")]`, update
`[m2 (id "a"), tombstone "z", m3 (id "b")]`; applying the update twice
equals applying it once. -/
theorem addMessages_idempotent_witness :
    addMessagesL
        (addMessagesL [Message.mk .human "hi" (some "a")]
          [.msg (Message.mk .assistant "re" (some "a")), .remove "z",
            .msg (Message.mk .human "new" (some "b"))])
        [.msg (Message.mk .assistant "re" (some "a")), .remove "z",
          .msg (Message.mk .human "new" (some "b"))]
      = addMessagesL [Message.mk .human "hi" (some "a")]
          [.msg (Message.mk .assistant "re" (some "a")), .remove "z",
            .msg (Message.mk .human "new" (some "b"))] :=
  addMessages_idempotent [Message.mk .human "hi" (some "a")]
    [.msg (Message.mk .assistant "re" (some "a")), .remove "z",
      .msg (Message.mk .human "new" (some "b"))]
    (by decide)
    (by
      intro m hm
      have hm' : m = Message.mk .assistant "re" (some "a")
          ∨ m = Message.mk .human "new" (some "b") := by
        simpa [freshMsgs] using hm
      rcases hm' with rfl | rfl
      · exact ⟨"a", rfl, by decide⟩
      · exact ⟨"b", rfl, by decide⟩)
    (by decide)

/-- C4: for every append-policy channel, the value after a sequence of
partial updates is the initial value concatenated with all (normalized)
update contributions in application order; the final length is the initial
length plus the sum of the update sizes; and a non-array update is
normalized to a one-element sequence before concatenation
(`concatReducer` of `state-reducers.mts`). -/
theorem applyConcatUpdates_accumulates (init : List Int) (us : List NumUpdate) :
    applyConcatUpdates init us = init ++ (us.map normalizeToSequence).flatten
      ∧ (applyConcatUpdates init us).length
          = init.length + (us.map (fun u => (normalizeToSequence u).length)).sum
      ∧ ∀ n : Int, normalizeToSequence (.single n) = [n]
      ∧ ∀ c : List Int, concatReducer c (.single n) = c ++ [n] := by
  refine ⟨applyConcatUpdates_spec init us, ?_, ?_⟩
  · rw [applyConcatUpdates_spec]
    simp [List.length_flatten, Function.comp_def]
  · intro n
    exact ⟨rfl, fun c => rfl⟩

/-- C5: two nodes writing the same overwrite-policy channel in one fan-out
step is a `ConcurrentWriteConflict`; the step's outcome is that error — not
`ok` with either proposed value, so neither write is silently applied. In
particular `graphBranch` of `state-reducers.mts`, whose `node_2` and
`node_3` run in the same step and both write the overwrite channel `foo`,
always yields the conflict error. -/
theorem overwrite_conflict_detected :
    (∀ (current w1 w2 : Int) (rest : List Int),
        applyOverwriteStep current (w1 :: w2 :: rest) = .error .concurrentWriteConflict)
      ∧ ∀ foo : Int, graphBranchStep foo = .error .concurrentWriteConflict := by
  exact ⟨fun _ _ _ _ => rfl, fun _ => rfl⟩

/-- C6: after the `conversation` node's update is merged, the conditional
edge evaluates `should_continue` on the post-merge snapshot; the
`summarize_conversation` node is the destination exactly when the merged
message list has more than 6 messages, and the destination is `END` exactly
when it has at most 6. -/
theorem conversation_routing (s : SummState) (update : List MsgItem) :
    (conversationStepNext s update = .summarize_conversation
        ↔ 6 < (addMessagesL s.messages update).length)
      ∧ (conversationStepNext s update = .END
        ↔ (addMessagesL s.messages update).length ≤ 6) := by
  by_cases h : 6 < (addMessagesL s.messages update).length <;>
    simp [conversationStepNext, should_continue, h] <;> omega

/-- C7: a channel whose key is absent from a partial update keeps exactly
its current value for that step — instantiated at both channels of the
summarization graph — and in particular the `call_model` node's update
`{ messages: [response] }` leaves the `summary` channel's value identical
before and after the merge. -/
theorem absent_key_frame (s : SummState) (p : SummPartial) :
    (p.summary = none → (applyUpdateSumm s p).summary = s.summary)
      ∧ (p.messages = none → (applyUpdateSumm s p).messages = s.messages)
      ∧ ∀ response : Message,
          (applyUpdateSumm s (call_model_update response)).summary = s.summary := by
  refine ⟨fun h => ?_, fun h => ?_, fun response => rfl⟩
  · simp [applyUpdateSumm, h]
  · simp [applyUpdateSumm, h]

/-- C7 (witness): concrete instance of the frame property. -/
theorem absent_key_frame_witness :
    (applyUpdateSumm ⟨[], "memo"⟩ ⟨some [.msg (Message.mk .human "hi" none)], none⟩).summary
      = "memo" :=
  (absent_key_frame ⟨[], "memo"⟩ ⟨some [.msg (Message.mk .human "hi" none)], none⟩).1 rfl

/-- C8: when a run is invoked with a conversation identifier holding a
prior snapshot, the loaded snapshot is the base state and the initial
partial is applied through the channel's normal merge function: a second
run whose initial partial is `{ messages: [newMsg] }` over the first run's
checkpoint ends with all of run 1's messages, then `newMsg`, then the
messages appended by the second run's nodes, in that order. -/
theorem checkpointed_second_run (run1Init : List Message)
    (run1Outs : List (List Message)) (newMsg : Message)
    (run2Outs : List (List Message)) :
    runWithMemory (some (runWithMemory none run1Init run1Outs)) [newMsg] run2Outs
      = runWithMemory none run1Init run1Outs ++ [newMsg] ++ run2Outs.flatten := by
  rw [runWithMemory_spec]
  rfl

/-- C9: the simple append-only `addMessages` reducer shared by the router,
agent-memory and server graphs concatenates unconditionally — the result is
always the current list followed by the (normalized) update, whatever the
identifiers are, so no replacement or removal ever occurs, and replaying
the same identified update grows the list by its size again. -/
theorem addMessagesSimple_append_only (current : List Message) (u : SimpleUpdate) :
    addMessagesSimple current u = current ++ normalizeSimple u
      ∧ (addMessagesSimple current u).take current.length = current
      ∧ (addMessagesSimple current u).drop current.length = normalizeSimple u
      ∧ addMessagesSimple (addMessagesSimple current u) u
          = current ++ normalizeSimple u ++ normalizeSimple u
      ∧ (addMessagesSimple (addMessagesSimple current u) u).length
          = current.length + 2 * (normalizeSimple u).length := by
  refine ⟨rfl, ?_, ?_, rfl, ?_⟩
  · simp [addMessagesSimple]
  · simp [addMessagesSimple]
  · simp [addMessagesSimple]
    omega

/-- C10: a tombstone whose identifier matches no message in the current
list leaves the list unchanged (the reducer raises nothing — it is a total
function); in particular, when no current message carries an identifier,
the tombstones built by `summarize_conversation` (one `RemoveMessage` with
id `m.id || ""`, i.e. the empty string, per identifier-less message) remove
nothing. -/
theorem unmatched_tombstone_noop (current : List Message) :
    (∀ rid : String, (∀ m ∈ current, m.id ≠ some rid) →
        addMessagesL current [.remove rid] = current)
      ∧ ((∀ m ∈ current, m.id = none) →
        addMessagesL current (summarizeRemovals current) = current) := by
  constructor
  · intro rid h
    simp [addMessagesL, applyItem, removeById_of_forall_ne h]
  · intro h
    have key : ∀ (items : List MsgItem), (∀ i ∈ items, ∃ r, i = .remove r) →
        addMessagesL current items = current := by
      intro items hitems
      induction items with
      | nil => rfl
      | cons i rest ih =>
        obtain ⟨r, hr⟩ := hitems i (by simp)
        have hnone : ∀ m ∈ current, m.id ≠ some r := by
          intro m hm
          rw [h m hm]
          simp
        rw [addMessagesL_cons, hr]
        have : applyItem current (.remove r) = current := by
          simp [applyItem, removeById_of_forall_ne hnone]
        rw [this]
        exact ih (fun i' hi' => hitems i' (by simp [hi']))
    exact key _ (by
      intro i hi
      simp only [summarizeRemovals, List.mem_map] at hi
      obtain ⟨m, _, hm⟩ := hi
      exact ⟨m.id.getD "", hm.symm⟩)

/-- C10 (witness): three identifier-less messages; the tombstone `"z"`
matches nothing, and `summarize_conversation`'s empty-string tombstone for
the oldest message removes nothing. -/
theorem unmatched_tombstone_noop_witness :
    addMessagesL
        [Message.mk .human "a" none, Message.mk .assistant "b" none,
          Message.mk .human "c" none]
        [.remove "z"]
      = [Message.mk .human "a" none, Message.mk .assistant "b" none,
          Message.mk .human "c" none]
      ∧ addMessagesL
          [Message.mk .human "a" none, Message.mk .assistant "b" none,
            Message.mk .human "c" none]
          (summarizeRemovals
            [Message.mk .human "a" none, Message.mk .assistant "b" none,
              Message.mk .human "c" none])
        = [Message.mk .human "a" none, Message.mk .assistant "b" none,
            Message.mk .human "c" none] :=
  ⟨(unmatched_tombstone_noop _).1 "z" (by decide),
    (unmatched_tombstone_noop _).2 (by decide)⟩
